import Mathlib

/-
Verification of the Minesweeper engine in `src/App.tsx`.

The embedding translates the game-logic functions of the `GameGrid` component:
`generateInitialGrid` / `countAdjacentBombs` (board generation),
`uncoverTile` with its inner recursive `cascade` (reveal resolution),
and `toggleFlag`.  JavaScript arrays become `List`s, the mutable
`newTileStates` array becomes explicit state passing, and JavaScript
numbers become `Nat` / `Int` (indices are naturally non-negative; signed
arithmetic appears only in the neighbour-offset computations, which is
where the source can go negative).  An access `a[i]` on an out-of-range
index throws a `TypeError` in the source (reading a field of
`undefined`); the public operations therefore return `Option`, with
`none` modelling the thrown error, and in-range reads use `List.getD`
whose default is never hit under the well-formedness hypotheses
(`tiles.length = states.length = width * height`) carried by the
theorems.
-/

/-- Kind of a tile, from the source's `Tile` union type
(`BombTile | NumberTile | EmptyTile`).  The `index` field of the source
records the tile's own array position and is redundant in a positional
encoding, so it is dropped. -/
inductive Tile where
  | bomb : Tile
  | number (adjacentBombs : Nat) : Tile
  | empty : Tile
deriving DecidableEq, Repr

/-- Per-cell mutable state, from the source's `TileState`. -/
structure TileState where
  isOpen : Bool
  isFlagged : Bool
deriving DecidableEq, Repr

/-- Default cell state used for `List.getD` reads; it is never reached
under the length hypotheses of the theorems. -/
def blank : TileState := ⟨false, false⟩

/-- Terminal signal of a reveal action.  The source reports `Lost` and
`Won` through `onGameOver(false)` / `onGameOver(true)`; a call that
triggers neither is `inProgress`. -/
inductive Outcome where
  | inProgress : Outcome
  | won : Outcome
  | lost : Outcome
deriving DecidableEq, Repr

/-- Offsets of the two nested `for (let i = -1; i <= 1; i++)`
`for (let j = -1; j <= 1; j++)` loops in source order.  Both
`countAdjacentBombs` and `cascade` iterate this 3-by-3 block, centre
included. -/
def offsets : List (Int × Int) :=
  [(-1, -1), (-1, 0), (-1, 1), (0, -1), (0, 0), (0, 1), (1, -1), (1, 0), (1, 1)]

/-- Row of a linear index, the source's `Math.floor(index / width)`,
as an integer ready for offset arithmetic. -/
def rowOf (w idx : Nat) : Int := ((idx / w : Nat) : Int)

/-- Column of a linear index, the source's `index % width`. -/
def colOf (w idx : Nat) : Int := ((idx % w : Nat) : Int)

/-- Adjacency count from the source's `countAdjacentBombs`: walk the
3-by-3 block around `index` (centre included, exactly as the source
loops do), keep the in-bounds positions, and count the bombs there.
`countAdjacentBombs` is only ever called on non-bomb centres, so the
centre never contributes. -/
def countAdjacentBombs (w h : Nat) (positions : List Tile) (index : Nat) : Nat :=
  offsets.countP (fun p =>
    decide (0 ≤ rowOf w index + p.1 ∧ rowOf w index + p.1 < (h : Int) ∧
      0 ≤ colOf w index + p.2 ∧ colOf w index + p.2 < (w : Int) ∧
      positions.getD (((rowOf w index + p.1) * w + (colOf w index + p.2)).toNat)
        Tile.empty = Tile.bomb))

/-- Mine placement loop of `generateInitialGrid`:
`while (bombsPlaced < numBombs) { pick random index; if empty, place }`.
The ambient `Math.random()` stream is abstracted as `rand : Nat → Nat`
(the value drawn on the `k`-th call; the source guarantees each draw is
in `[0, positions.length)`, and a hypothetical out-of-range draw is
skipped because `getD`'s default is not `empty`).  The loop has no
syntactic bound, so it consumes `fuel`; `none` models a run that did not
finish within `fuel` iterations. -/
def placeBombs (numBombs : Nat) (rand : Nat → Nat) :
    Nat → Nat → Nat → List Tile → Option (List Tile)
  | 0, _, bombsPlaced, positions =>
    if numBombs ≤ bombsPlaced then some positions else none
  | fuel' + 1, k, bombsPlaced, positions =>
    if numBombs ≤ bombsPlaced then some positions
    else if positions.getD (rand k) Tile.bomb = Tile.empty then
      placeBombs numBombs rand fuel' (k + 1) (bombsPlaced + 1)
        (positions.set (rand k) Tile.bomb)
    else
      placeBombs numBombs rand fuel' (k + 1) bombsPlaced positions

/-- Map with the element's index, the source's
`positions.map((tile, index) => ...)` idiom made explicit. -/
def mapWithIndex {α : Type} (f : Nat → α → α) : Nat → List α → List α
  | _, [] => []
  | k, a :: l => f k a :: mapWithIndex f (k + 1) l

/-- Board generation, from the source's `generateInitialGrid`: start
from an all-`empty` grid of `w * h` placeholders, place the bombs, then
re-type every non-bomb tile as `number`/`empty` from its adjacency
count. -/
def generateInitialGrid (w h numBombs : Nat) (rand : Nat → Nat) (fuel : Nat) :
    Option (List Tile) :=
  match placeBombs numBombs rand fuel 0 0 (List.replicate (w * h) Tile.empty) with
  | none => none
  | some positions =>
    some (mapWithIndex (fun index tile =>
      match tile with
      | Tile.bomb => Tile.bomb
      | _ =>
        if 0 < countAdjacentBombs w h positions index then
          Tile.number (countAdjacentBombs w h positions index)
        else Tile.empty) 0 positions)

/-- In-bounds 3-by-3 block around `idx` (centre included), in source
loop order: the list of `newRow * width + newCol` values for which the
source's per-neighbour bounds check passes.  The source's `cascade`
recurses into exactly these indices. -/
def neighborsOf (w h : Nat) (idx : Nat) : List Nat :=
  offsets.filterMap (fun p =>
    if 0 ≤ rowOf w idx + p.1 ∧ rowOf w idx + p.1 < (h : Int) ∧
        0 ≤ colOf w idx + p.2 ∧ colOf w idx + p.2 < (w : Int) then
      some (((rowOf w idx + p.1) * w + (colOf w idx + p.2)).toNat)
    else none)

/-- Flood fill of the source's inner `cascade` closure: stop when the
index is out of range, already open, or a bomb; otherwise open it, and
if it is `empty` recurse into the whole in-bounds 3-by-3 block (the
centre re-visit is cut off by the already-open guard, exactly as in the
source).  The recursion is indexed by `fuel`; `cascadeF_fuel_ge` proves
that any `fuel ≥` the number of closed cells yields the same result, so
the fuel is a bookkeeping device, not a behaviour change.  The source's
`idx < 0` guard is unreachable (every recursive call is bounds-checked
first) and has no `Nat` counterpart. -/
def cascadeF (w h : Nat) (tiles : List Tile) : Nat → List TileState → Nat → List TileState
  | 0, s, _ => s
  | fuel + 1, s, idx =>
    if tiles.length ≤ idx ∨ (s.getD idx blank).isOpen = true ∨
        tiles.getD idx Tile.empty = Tile.bomb then s
    else
      let s1 := s.set idx { s.getD idx blank with isOpen := true }
      if tiles.getD idx Tile.empty = Tile.empty then
        (neighborsOf w h idx).foldl (fun acc n => cascadeF w h tiles fuel acc n) s1
      else s1

/-- Cascade with enough fuel to reach its fixpoint (the source recursion
always terminates; `cascadeF_fuel_ge` shows any fuel of at least
`s.length` gives this same result). -/
def cascade (w h : Nat) (tiles : List Tile) (s : List TileState) (idx : Nat) :
    List TileState :=
  cascadeF w h tiles (s.length + 1) s idx

/-- Loss disclosure from `uncoverTile`'s bomb branch:
`tiles.forEach((t, i) => { if (t.type === 'bomb') open i })`. -/
def revealBombs (tiles : List Tile) (states : List TileState) : List TileState :=
  mapWithIndex (fun i st =>
    if tiles.getD i Tile.empty = Tile.bomb then { st with isOpen := true } else st)
    0 states

/-- Win courtesy from `uncoverTile`'s win branch:
`tiles.forEach((t, i) => { if (t.type === 'bomb') flag i })`. -/
def flagBombs (tiles : List Tile) (states : List TileState) : List TileState :=
  mapWithIndex (fun i st =>
    if tiles.getD i Tile.empty = Tile.bomb then { st with isFlagged := true } else st)
    0 states

/-- Win-condition count from `uncoverTile`:
`tiles.filter((t, i) => t.type !== 'bomb' && !newTileStates[i].isOpen).length`. -/
def unopenedNonBombs (tiles : List Tile) (states : List TileState) : Nat :=
  (List.range tiles.length).countP (fun i =>
    decide (tiles.getD i Tile.empty ≠ Tile.bomb ∧
      (states.getD i blank).isOpen = false))

/-- Body of the source's `uncoverTile` once the initial
`tileStates[index]` access has succeeded: the already-open no-op, the
bomb branch (full disclosure, `Lost`), and the cascade followed by the
win check. -/
def uncoverTileAux (w h : Nat) (tiles : List Tile) (states : List TileState)
    (i : Nat) : List TileState × Outcome :=
  if (states.getD i blank).isOpen = true then (states, Outcome.inProgress)
  else if tiles.getD i Tile.empty = Tile.bomb then
    (revealBombs tiles states, Outcome.lost)
  else
    let s1 := cascade w h tiles states i
    if unopenedNonBombs tiles s1 = 0 then (flagBombs tiles s1, Outcome.won)
    else (s1, Outcome.inProgress)

/-- Reveal action, from the source's `uncoverTile(index)`.  The very
first statement `tileStates[index].isOpen` throws a `TypeError` when
`index` is outside `[0, tileStates.length)` (reading a field of
`undefined`), before any state is written; `none` models that thrown
error. -/
def uncoverTile (w h : Nat) (tiles : List Tile) (states : List TileState)
    (index : Int) : Option (List TileState × Outcome) :=
  if 0 ≤ index ∧ index < (states.length : Int) then
    some (uncoverTileAux w h tiles states index.toNat)
  else none

/-- Flag action, from the source's `toggleFlag(index)`: flip `isFlagged`
of exactly that cell.  Reading `newStates[index].isFlagged` throws on an
out-of-range index before any write, modelled by `none`. -/
def toggleFlag (states : List TileState) (index : Int) : Option (List TileState) :=
  if 0 ≤ index ∧ index < (states.length : Int) then
    some (states.set index.toNat
      { states.getD index.toNat blank with
          isFlagged := !(states.getD index.toNat blank).isFlagged })
  else none

/-- Paths of the cascade's reveal graph: `ReachFrom w h tiles a j` holds
when the cascade seeded at `a` can hand the index `j` a visit, i.e.
there is a chain `a = c₀, c₁, …, cₖ = j` in which every link goes from a
cell of kind `empty` to a member of its in-bounds 3-by-3 block.  Every
cell on the chain except possibly the last is `empty`. -/
inductive ReachFrom (w h : Nat) (tiles : List Tile) : Nat → Nat → Prop where
  | refl (a : Nat) : ReachFrom w h tiles a a
  | tail {a e j : Nat} : ReachFrom w h tiles a e →
      tiles.getD e Tile.empty = Tile.empty → j ∈ neighborsOf w h e →
      ReachFrom w h tiles a j

/-- Cells the spec's cascade description designates: the connected
zero-adjacency region of `start` (the `empty` cells reachable from
`start` through `empty` cells) together with the non-bomb cells
bordering that region.  Since an in-range cell is a member of its own
3-by-3 block, the region itself is included. -/
def CascadeSet (w h : Nat) (tiles : List Tile) (start j : Nat) : Prop :=
  tiles.getD j Tile.empty ≠ Tile.bomb ∧
    ∃ e, ReachFrom w h tiles start e ∧ tiles.getD e Tile.empty = Tile.empty ∧
      j ∈ neighborsOf w h e

/-- Number of unopened cells, the decreasing measure of the cascade. -/
def closedCount (s : List TileState) : Nat :=
  s.countP (fun st => !st.isOpen)

/-- Recount of the 8-directional neighbourhood stated by the spec: the
3-by-3 block minus the centre, clipped at the grid edges.  This is the
claim-side definition (claim C2) to be compared with the source-side
`countAdjacentBombs`, which iterates the full block including the
centre. -/
def specMineNeighborCount (w h : Nat) (tiles : List Tile) (index : Nat) : Nat :=
  [(-1, -1), (-1, 0), (-1, 1), (0, -1), (0, 1), (1, -1), (1, 0), (1, 1)].countP
    (fun p : Int × Int =>
      decide (0 ≤ rowOf w index + p.1 ∧ rowOf w index + p.1 < (h : Int) ∧
        0 ≤ colOf w index + p.2 ∧ colOf w index + p.2 < (w : Int) ∧
        tiles.getD (((rowOf w index + p.1) * w + (colOf w index + p.2)).toNat)
          Tile.empty = Tile.bomb))

/-! ### List helpers -/

theorem mapWithIndex_length {α : Type} (f : Nat → α → α) :
    ∀ (k : Nat) (l : List α), (mapWithIndex f k l).length = l.length := by
  intro k l
  induction l generalizing k with
  | nil => rfl
  | cons a l ih => simp [mapWithIndex, ih]

theorem mapWithIndex_getD {α : Type} (f : Nat → α → α) :
    ∀ (l : List α) (k j : Nat) (d : α),
      (mapWithIndex f k l).getD j d =
        if j < l.length then f (k + j) (l.getD j d) else d := by
  intro l
  induction l with
  | nil => intro k j d; simp [mapWithIndex, List.getD_eq_default]
  | cons a l ih =>
    intro k j d
    cases j with
    | zero => simp [mapWithIndex]
    | succ j =>
      simp only [mapWithIndex, List.getD_cons_succ, ih, List.length_cons]
      have harith : k + 1 + j = k + (j + 1) := by omega
      by_cases hj : j < l.length
      · rw [if_pos hj, if_pos (by omega), harith]
      · rw [if_neg hj, if_neg (by omega)]

theorem countP_set_acc {α : Type} (p : α → Bool) :
    ∀ (l : List α) (i : Nat) (a d : α), i < l.length →
      (l.set i a).countP p + (if p (l.getD i d) then 1 else 0) =
        l.countP p + (if p a then 1 else 0) := by
  intro l
  induction l with
  | nil => intro i a d h; simp at h
  | cons b l ih =>
    intro i a d h
    cases i with
    | zero =>
      simp only [List.set_cons_zero, List.countP_cons, List.getD_cons_zero]
      omega
    | succ i =>
      simp only [List.set_cons_succ, List.countP_cons, List.getD_cons_succ]
      have h' : i < l.length := by simpa using h
      have := ih i a d h'
      omega

theorem countP_mapWithIndex {α : Type} (p : α → Bool) (f : Nat → α → α)
    (hf : ∀ i a, p (f i a) = p a) :
    ∀ (k : Nat) (l : List α), (mapWithIndex f k l).countP p = l.countP p := by
  intro k l
  induction l generalizing k with
  | nil => rfl
  | cons a l ih => simp [mapWithIndex, List.countP_cons, ih, hf]

theorem getD_set_self {α : Type} (l : List α) (i : Nat) (a d : α) (h : i < l.length) :
    (l.set i a).getD i d = a := by
  simp [List.getD_eq_getElem?_getD, List.getElem?_set_self, h]

theorem getD_set_ne {α : Type} (l : List α) (i j : Nat) (a d : α) (h : i ≠ j) :
    (l.set i a).getD j d = l.getD j d := by
  simp [List.getD_eq_getElem?_getD, List.getElem?_set_ne h]

/-! ### Neighbourhood lemmas -/

theorem mem_neighborsOf_lt {w h idx n : Nat} (hn : n ∈ neighborsOf w h idx) :
    n < w * h := by
  unfold neighborsOf at hn
  obtain ⟨p, _, hp⟩ := List.mem_filterMap.mp hn
  by_cases hc : 0 ≤ rowOf w idx + p.1 ∧ rowOf w idx + p.1 < (h : Int) ∧
      0 ≤ colOf w idx + p.2 ∧ colOf w idx + p.2 < (w : Int)
  · rw [if_pos hc] at hp
    obtain ⟨h1, h2, h3, h4⟩ := hc
    have hval : (rowOf w idx + p.1) * w + (colOf w idx + p.2) < ((w * h : Nat) : Int) := by
      push_cast
      calc (rowOf w idx + p.1) * w + (colOf w idx + p.2)
          < (rowOf w idx + p.1) * w + w := by omega
        _ = (rowOf w idx + p.1 + 1) * w := by ring
        _ ≤ (h : Int) * w := mul_le_mul_of_nonneg_right (by omega) (by positivity)
        _ = (w : Int) * h := by ring
    have hnn : 0 ≤ (rowOf w idx + p.1) * w + (colOf w idx + p.2) := by positivity
    rw [← Option.some.inj hp]
    exact (Int.toNat_lt hnn).mpr hval
  · rw [if_neg hc] at hp
    exact absurd hp (by simp)

theorem self_mem_neighborsOf {w h idx : Nat} (hidx : idx < w * h) :
    idx ∈ neighborsOf w h idx := by
  have hwh : 0 < w * h := Nat.zero_lt_of_lt hidx
  have hw : 0 < w := Nat.pos_of_ne_zero (fun h0 => by simp [h0] at hwh)
  have hrow : idx / w < h :=
    Nat.div_lt_iff_lt_mul hw |>.mpr (hidx.trans_eq (Nat.mul_comm w h))
  have hcol : idx % w < w := Nat.mod_lt idx hw
  have key : w * (idx / w) + idx % w = idx := Nat.div_add_mod idx w
  have key2 : idx / w * w + idx % w = idx := by rw [Nat.mul_comm (idx / w) w]; exact key
  have keyInt : ((idx / w : Nat) : Int) * (w : Int) + ((idx % w : Nat) : Int) = (idx : Int) := by
    exact_mod_cast key2
  have hcond : 0 ≤ rowOf w idx + 0 ∧ rowOf w idx + 0 < (h : Int) ∧
      0 ≤ colOf w idx + 0 ∧ colOf w idx + 0 < (w : Int) := by
    unfold rowOf colOf
    refine ⟨by rw [add_zero]; positivity, ?_, by rw [add_zero]; positivity, ?_⟩
    · rw [add_zero]; exact_mod_cast hrow
    · rw [add_zero]; exact_mod_cast hcol
  have hval : (((rowOf w idx + 0) * w + (colOf w idx + 0)).toNat) = idx := by
    rw [add_zero, add_zero]
    unfold rowOf colOf
    rw [keyInt]
    exact Int.toNat_natCast idx
  unfold neighborsOf
  refine List.mem_filterMap.mpr ⟨(0, 0), by decide, ?_⟩
  show (if 0 ≤ rowOf w idx + 0 ∧ rowOf w idx + 0 < (h : Int) ∧
      0 ≤ colOf w idx + 0 ∧ colOf w idx + 0 < (w : Int) then
    some (((rowOf w idx + 0) * w + (colOf w idx + 0)).toNat) else none) = some idx
  rw [if_pos hcond, hval]

/-! ### Frame and monotonicity of the cascade -/

/-- Relation between a pre-state and a post-state that every reveal step
of the cascade respects: length preserved, flags untouched, opened cells
stay open, bomb cells keep their reveal status. -/
def Evolves (tiles : List Tile) (s t : List TileState) : Prop :=
  t.length = s.length ∧
  (∀ j, (t.getD j blank).isFlagged = (s.getD j blank).isFlagged) ∧
  (∀ j, (s.getD j blank).isOpen = true → (t.getD j blank).isOpen = true) ∧
  (∀ j, tiles.getD j Tile.empty = Tile.bomb →
    (t.getD j blank).isOpen = (s.getD j blank).isOpen)

theorem evolves_refl (tiles : List Tile) (s : List TileState) : Evolves tiles s s :=
  ⟨rfl, fun _ => rfl, fun _ hj => hj, fun _ _ => rfl⟩

theorem evolves_trans {tiles : List Tile} {s t u : List TileState}
    (h1 : Evolves tiles s t) (h2 : Evolves tiles t u) : Evolves tiles s u := by
  obtain ⟨l1, f1, o1, b1⟩ := h1
  obtain ⟨l2, f2, o2, b2⟩ := h2
  exact ⟨l2.trans l1, fun j => (f2 j).trans (f1 j), fun j hj => o2 j (o1 j hj),
    fun j hb => (b2 j hb).trans (b1 j hb)⟩

theorem evolves_set_open {tiles : List Tile} (s : List TileState) (i : Nat)
    (hbomb : tiles.getD i Tile.empty ≠ Tile.bomb) :
    Evolves tiles s (s.set i { s.getD i blank with isOpen := true }) := by
  by_cases hi : i < s.length
  · refine ⟨List.length_set s i _, ?_, ?_, ?_⟩
    · intro j
      by_cases hij : i = j
      · subst hij; rw [getD_set_self _ _ _ _ hi]
      · rw [getD_set_ne _ _ _ _ _ hij]
    · intro j hj
      by_cases hij : i = j
      · subst hij; rw [getD_set_self _ _ _ _ hi]
      · rw [getD_set_ne _ _ _ _ _ hij]; exact hj
    · intro j hb
      by_cases hij : i = j
      · subst hij; exact absurd hb hbomb
      · rw [getD_set_ne _ _ _ _ _ hij]
  · rw [List.set_eq_of_length_le (by omega)]
    exact evolves_refl tiles s

theorem foldl_evolves {tiles : List Tile} (step : List TileState → Nat → List TileState)
    (hstep : ∀ a n, Evolves tiles a (step a n)) :
    ∀ (l : List Nat) (a : List TileState), Evolves tiles a (l.foldl step a) := by
  intro l
  induction l with
  | nil => intro a; exact evolves_refl tiles a
  | cons n l ih =>
    intro a
    exact evolves_trans (hstep a n) (ih (step a n))

theorem cascadeF_evolves (w h : Nat) (tiles : List Tile) :
    ∀ (fuel : Nat) (s : List TileState) (idx : Nat),
      Evolves tiles s (cascadeF w h tiles fuel s idx) := by
  intro fuel
  induction fuel with
  | zero => intro s idx; exact evolves_refl tiles s
  | succ fuel ih =>
    intro s idx
    rw [cascadeF]
    by_cases hg : tiles.length ≤ idx ∨ (s.getD idx blank).isOpen = true ∨
        tiles.getD idx Tile.empty = Tile.bomb
    · rw [if_pos hg]; exact evolves_refl tiles s
    · rw [if_neg hg]
      push_neg at hg
      have hset : Evolves tiles s (s.set idx { s.getD idx blank with isOpen := true }) :=
        evolves_set_open s idx hg.2.2
      by_cases he : tiles.getD idx Tile.empty = Tile.empty
      · rw [if_pos he]
        exact evolves_trans hset (foldl_evolves _ (fun a n => ih a n) _ _)
      · rw [if_neg he]
        exact hset

/-! ### The decreasing measure of the cascade -/

theorem closedCount_le {s t : List TileState} (hlen : t.length = s.length)
    (hmono : ∀ j, (s.getD j blank).isOpen = true → (t.getD j blank).isOpen = true) :
    closedCount t ≤ closedCount s := by
  unfold closedCount
  induction s generalizing t with
  | nil =>
    cases t with
    | nil => exact Nat.le_refl _
    | cons b t => simp at hlen
  | cons a s ih =>
    cases t with
    | nil => simp at hlen
    | cons b t =>
      simp only [List.countP_cons]
      have htail : t.countP (fun st => !st.isOpen) ≤ s.countP (fun st => !st.isOpen) := by
        refine ih (by simpa using hlen) ?_
        intro j hj
        have := hmono (j + 1)
        simpa [List.getD_cons_succ] using this (by simpa [List.getD_cons_succ] using hj)
      have hhead := hmono 0
      simp only [List.getD_cons_zero] at hhead
      cases hao : a.isOpen with
      | true =>
        have hbo := hhead hao
        rw [hbo]
        omega
      | false =>
        cases b.isOpen <;> simp <;> omega

theorem closedCount_evolves {tiles : List Tile} {s t : List TileState}
    (h : Evolves tiles s t) : closedCount t ≤ closedCount s :=
  closedCount_le h.1 h.2.2.1

theorem closedCount_set_open {s : List TileState} {i : Nat} (hi : i < s.length)
    (hcl : (s.getD i blank).isOpen = false) :
    closedCount (s.set i { s.getD i blank with isOpen := true }) + 1 = closedCount s := by
  have := countP_set_acc (fun st => !st.isOpen) s i
    { s.getD i blank with isOpen := true } blank hi
  unfold closedCount
  simp only [hcl] at this
  simpa using this

theorem closedCount_zero_open {s : List TileState} (h : closedCount s = 0) {i : Nat}
    (hi : i < s.length) : (s.getD i blank).isOpen = true := by
  have hmem : s.getD i blank ∈ s := by
    rw [List.getD_eq_getElem s blank hi]
    exact List.getElem_mem hi
  have := List.countP_eq_zero.mp h _ hmem
  simpa using this

theorem closedCount_le_length (s : List TileState) : closedCount s ≤ s.length :=
  List.countP_le_length _

/-! ### Fuel independence: the cascade terminates -/

theorem cascadeF_stable (w h : Nat) (tiles : List Tile) :
    ∀ (fuel : Nat) (s : List TileState) (idx : Nat), tiles.length = s.length →
      closedCount s ≤ fuel →
      cascadeF w h tiles (fuel + 1) s idx = cascadeF w h tiles fuel s idx := by
  intro fuel
  induction fuel with
  | zero =>
    intro s idx hlen hcc
    rw [cascadeF, cascadeF]
    by_cases hb : tiles.length ≤ idx
    · rw [if_pos (Or.inl hb)]
    · have hopen : (s.getD idx blank).isOpen = true :=
        closedCount_zero_open (by omega) (by omega)
      rw [if_pos (Or.inr (Or.inl hopen))]
  | succ fuel ih =>
    intro s idx hlen hcc
    rw [cascadeF, cascadeF]
    by_cases hg : tiles.length ≤ idx ∨ (s.getD idx blank).isOpen = true ∨
        tiles.getD idx Tile.empty = Tile.bomb
    · rw [if_pos hg, if_pos hg]
    · rw [if_neg hg, if_neg hg]
      push_neg at hg
      by_cases he : tiles.getD idx Tile.empty = Tile.empty
      · rw [if_pos he, if_pos he]
        have hset : closedCount (s.set idx { s.getD idx blank with isOpen := true }) + 1 =
            closedCount s := closedCount_set_open (by omega) (by simpa using hg.2.1)
        have hfold : ∀ (l : List Nat) (acc : List TileState), tiles.length = acc.length →
            closedCount acc ≤ fuel →
            l.foldl (fun a n => cascadeF w h tiles (fuel + 1) a n) acc =
              l.foldl (fun a n => cascadeF w h tiles fuel a n) acc := by
          intro l
          induction l with
          | nil => intro acc _ _; rfl
          | cons n l ihl =>
            intro acc hlacc hccacc
            simp only [List.foldl_cons]
            rw [ih acc n hlacc hccacc]
            have hev := cascadeF_evolves w h tiles fuel acc n
            exact ihl _ (hlacc.trans hev.1.symm)
              ((closedCount_evolves hev).trans hccacc)
        exact hfold _ _ (by simpa using hlen) (by omega)
      · rw [if_neg he, if_neg he]

theorem cascadeF_fuel_ge (w h : Nat) (tiles : List Tile) (s : List TileState) (idx : Nat)
    (hlen : tiles.length = s.length) :
    ∀ (fuel : Nat), closedCount s ≤ fuel →
      cascadeF w h tiles fuel s idx = cascadeF w h tiles (closedCount s) s idx := by
  have hstep : ∀ (k : Nat), cascadeF w h tiles (closedCount s + k) s idx =
      cascadeF w h tiles (closedCount s) s idx := by
    intro k
    induction k with
    | zero => rfl
    | succ k ihk =>
      rw [show closedCount s + (k + 1) = (closedCount s + k) + 1 by omega]
      rw [cascadeF_stable w h tiles (closedCount s + k) s idx hlen (by omega)]
      exact ihk
  intro fuel hfuel
  have : fuel = closedCount s + (fuel - closedCount s) := by omega
  rw [this, hstep]

theorem cascadeF_eq_cascade {w h : Nat} {tiles : List Tile} {s : List TileState}
    {idx : Nat} (hlen : tiles.length = s.length) {fuel : Nat}
    (hfuel : closedCount s ≤ fuel) :
    cascadeF w h tiles fuel s idx = cascade w h tiles s idx := by
  unfold cascade
  rw [cascadeF_fuel_ge w h tiles s idx hlen fuel hfuel,
    cascadeF_fuel_ge w h tiles s idx hlen (s.length + 1)
      ((closedCount_le_length s).trans (by omega))]

theorem closedCount_pos {s : List TileState} {i : Nat} (hi : i < s.length)
    (hcl : (s.getD i blank).isOpen = false) : 0 < closedCount s := by
  refine Nat.pos_of_ne_zero fun h0 => ?_
  rw [closedCount_zero_open h0 hi] at hcl
  cases hcl

/-- The cascade always opens its own target when it is in range and not a
bomb (whether or not the target was open before). -/
theorem cascadeF_opens (w h : Nat) (tiles : List Tile) {fuel : Nat}
    {s : List TileState} {idx : Nat} (hlen : tiles.length = s.length)
    (hfuel : closedCount s ≤ fuel) (hidx : idx < tiles.length)
    (hbomb : tiles.getD idx Tile.empty ≠ Tile.bomb) :
    ((cascadeF w h tiles fuel s idx).getD idx blank).isOpen = true := by
  by_cases hop : (s.getD idx blank).isOpen = true
  · exact (cascadeF_evolves w h tiles fuel s idx).2.2.1 idx hop
  · have hidxlen : idx < s.length := by omega
    have hcc : 0 < closedCount s := closedCount_pos hidxlen (by simpa using hop)
    cases fuel with
    | zero => omega
    | succ fuel =>
      rw [cascadeF]
      rw [if_neg (by push_neg; exact ⟨by omega, hop, hbomb⟩)]
      have hs1 : ((s.set idx { s.getD idx blank with isOpen := true }).getD idx
          blank).isOpen = true := by
        rw [getD_set_self s idx { s.getD idx blank with isOpen := true } blank (by omega)]
      by_cases he : tiles.getD idx Tile.empty = Tile.empty
      · rw [if_pos he]
        exact (foldl_evolves _ (fun a n => cascadeF_evolves w h tiles fuel a n)
          _ _).2.2.1 idx hs1
      · rw [if_neg he]
        exact hs1

/-! ### Soundness: only reachable cells get opened -/

theorem reachFrom_trans {w h : Nat} {tiles : List Tile} {a b c : Nat}
    (h1 : ReachFrom w h tiles a b) (h2 : ReachFrom w h tiles b c) :
    ReachFrom w h tiles a c := by
  induction h2 with
  | refl => exact h1
  | tail _ he hn ih => exact ReachFrom.tail ih he hn

theorem cascadeF_sound (w h : Nat) (tiles : List Tile) :
    ∀ (fuel : Nat) (s : List TileState) (idx j : Nat),
      ((cascadeF w h tiles fuel s idx).getD j blank).isOpen = true →
      (s.getD j blank).isOpen = true ∨
        (ReachFrom w h tiles idx j ∧ tiles.getD j Tile.empty ≠ Tile.bomb ∧
          j < tiles.length) := by
  intro fuel
  induction fuel with
  | zero => intro s idx j hj; exact Or.inl hj
  | succ fuel ih =>
    intro s idx j hj
    rw [cascadeF] at hj
    by_cases hg : tiles.length ≤ idx ∨ (s.getD idx blank).isOpen = true ∨
        tiles.getD idx Tile.empty = Tile.bomb
    · rw [if_pos hg] at hj; exact Or.inl hj
    · rw [if_neg hg] at hj
      push_neg at hg
      obtain ⟨hlt, hop, hbomb⟩ := hg
      have hs1prop : ∀ j',
          ((s.set idx { s.getD idx blank with isOpen := true }).getD j' blank).isOpen
            = true →
          (s.getD j' blank).isOpen = true ∨
            (ReachFrom w h tiles idx j' ∧ tiles.getD j' Tile.empty ≠ Tile.bomb ∧
              j' < tiles.length) := by
        intro j' hj'
        by_cases hji : idx = j'
        · subst hji
          exact Or.inr ⟨ReachFrom.refl idx, hbomb, by omega⟩
        · rw [getD_set_ne _ _ _ _ _ hji] at hj'
          exact Or.inl hj'
      by_cases he : tiles.getD idx Tile.empty = Tile.empty
      · rw [if_pos he] at hj
        have hfold : ∀ (l : List Nat), (∀ n ∈ l, n ∈ neighborsOf w h idx) →
            ∀ (acc : List TileState),
            (∀ j', ((acc.getD j' blank).isOpen = true) →
              (s.getD j' blank).isOpen = true ∨
                (ReachFrom w h tiles idx j' ∧ tiles.getD j' Tile.empty ≠ Tile.bomb ∧
                  j' < tiles.length)) →
            ∀ j', ((l.foldl (fun a n => cascadeF w h tiles fuel a n) acc).getD j'
                blank).isOpen = true →
              (s.getD j' blank).isOpen = true ∨
                (ReachFrom w h tiles idx j' ∧ tiles.getD j' Tile.empty ≠ Tile.bomb ∧
                  j' < tiles.length) := by
          intro l
          induction l with
          | nil => intro _ acc hacc j' hj'; exact hacc j' hj'
          | cons n l ihl =>
            intro hmem acc hacc j' hj'
            simp only [List.foldl_cons] at hj'
            refine ihl (fun m hm => hmem m (List.mem_cons_of_mem n hm)) _ ?_ j' hj'
            intro j'' hj''
            rcases ih acc n j'' hj'' with haccop | ⟨hr, hnb, hlt'⟩
            · exact hacc j'' haccop
            · refine Or.inr ⟨?_, hnb, hlt'⟩
              exact reachFrom_trans
                (ReachFrom.tail (ReachFrom.refl idx) he (hmem n (List.mem_cons_self n l))) hr
        exact hfold _ (fun n hn => hn) _ hs1prop j hj
      · rw [if_neg he] at hj
        exact hs1prop j hj

/-! ### Saturation: a newly opened empty cell drags its whole block along -/

theorem cascadeF_sat (w h : Nat) (tiles : List Tile) (hw : tiles.length = w * h) :
    ∀ (fuel : Nat) (s : List TileState) (idx : Nat), tiles.length = s.length →
      closedCount s ≤ fuel →
      ∀ e, tiles.getD e Tile.empty = Tile.empty →
        ((cascadeF w h tiles fuel s idx).getD e blank).isOpen = true →
        (s.getD e blank).isOpen = false →
        ∀ n, n ∈ neighborsOf w h e → tiles.getD n Tile.empty ≠ Tile.bomb →
          ((cascadeF w h tiles fuel s idx).getD n blank).isOpen = true := by
  intro fuel
  induction fuel with
  | zero =>
    intro s idx hlen hcc e he hFe hse n hn hnb
    simp only [cascadeF] at hFe
    rw [hFe] at hse
    cases hse
  | succ fuel ih =>
    intro s idx hlen hcc e he hFe hse n hn hnb
    rw [cascadeF] at hFe ⊢
    by_cases hg : tiles.length ≤ idx ∨ (s.getD idx blank).isOpen = true ∨
        tiles.getD idx Tile.empty = Tile.bomb
    · rw [if_pos hg] at hFe ⊢
      rw [hFe] at hse
      cases hse
    · rw [if_neg hg] at hFe ⊢
      push_neg at hg
      obtain ⟨hlt, hopidx, hbombidx⟩ := hg
      have hidxlen : idx < s.length := by omega
      have hs1len : tiles.length =
          (s.set idx { s.getD idx blank with isOpen := true }).length := by
        simp [hlen]
      have hccs1 : closedCount (s.set idx { s.getD idx blank with isOpen := true })
          ≤ fuel := by
        have := closedCount_set_open hidxlen (by simpa using hopidx)
        omega
      by_cases hemp : tiles.getD idx Tile.empty = Tile.empty
      · rw [if_pos hemp] at hFe ⊢
        have hfoldA : ∀ (l : List Nat) (acc : List TileState),
            tiles.length = acc.length → closedCount acc ≤ fuel →
            ∀ m ∈ l, m < tiles.length → tiles.getD m Tile.empty ≠ Tile.bomb →
              ((l.foldl (fun a n' => cascadeF w h tiles fuel a n') acc).getD m
                blank).isOpen = true := by
          intro l
          induction l with
          | nil =>
            intro acc _ _ m hm
            exact absurd hm (List.not_mem_nil m)
          | cons m0 rest ihl =>
            intro acc hlacc hccacc m hm hmlt hmb
            simp only [List.foldl_cons]
            have hev0 := cascadeF_evolves w h tiles fuel acc m0
            rcases List.mem_cons.mp hm with rfl | hmrest
            · have hopen0 : ((cascadeF w h tiles fuel acc m).getD m blank).isOpen
                  = true := cascadeF_opens w h tiles hlacc hccacc hmlt hmb
              exact (foldl_evolves _ (fun a n' => cascadeF_evolves w h tiles fuel a n')
                rest _).2.2.1 m hopen0
            · exact ihl _ (hlacc.trans hev0.1.symm)
                ((closedCount_evolves hev0).trans hccacc) m hmrest hmlt hmb
        have hfoldB : ∀ (l : List Nat) (acc : List TileState),
            tiles.length = acc.length → closedCount acc ≤ fuel →
            ((l.foldl (fun a n' => cascadeF w h tiles fuel a n') acc).getD e
              blank).isOpen = true →
            (acc.getD e blank).isOpen = false →
            ((l.foldl (fun a n' => cascadeF w h tiles fuel a n') acc).getD n
              blank).isOpen = true := by
          intro l
          induction l with
          | nil =>
            intro acc _ _ hopl hcll
            simp only [List.foldl_nil] at hopl ⊢
            rw [hopl] at hcll
            cases hcll
          | cons m0 rest ihl =>
            intro acc hlacc hccacc hopl hcll
            simp only [List.foldl_cons] at hopl ⊢
            have hev0 := cascadeF_evolves w h tiles fuel acc m0
            by_cases hacc' : ((cascadeF w h tiles fuel acc m0).getD e blank).isOpen = true
            · have hsat := ih acc m0 hlacc hccacc e he hacc' hcll n hn hnb
              exact (foldl_evolves _ (fun a n' => cascadeF_evolves w h tiles fuel a n')
                rest _).2.2.1 n hsat
            · refine ihl _ (hlacc.trans hev0.1.symm)
                ((closedCount_evolves hev0).trans hccacc) hopl ?_
              simpa using hacc'
        by_cases hei : idx = e
        · subst hei
          have hnlt : n < tiles.length := by rw [hw]; exact mem_neighborsOf_lt hn
          exact hfoldA _ _ hs1len hccs1 n hn hnlt hnb
        · have hs1e : ((s.set idx { s.getD idx blank with isOpen := true }).getD e
              blank).isOpen = false := by
            rw [getD_set_ne _ _ _ _ _ hei]
            exact hse
          exact hfoldB _ _ hs1len hccs1 hFe hs1e
      · rw [if_neg hemp] at hFe ⊢
        by_cases hei : idx = e
        · subst hei
          exact absurd he hemp
        · rw [getD_set_ne _ _ _ _ _ hei] at hFe
          rw [hFe] at hse
          cases hse

/-! ### Flags never steer the cascade -/

/-- Two state arrays that agree cell-by-cell on `isOpen` (flags may
differ arbitrarily). -/
def OpenEq (s t : List TileState) : Prop :=
  s.length = t.length ∧ ∀ j, (s.getD j blank).isOpen = (t.getD j blank).isOpen

theorem cascadeF_openEq (w h : Nat) (tiles : List Tile) :
    ∀ (fuel : Nat) (s t : List TileState) (idx : Nat), OpenEq s t →
      OpenEq (cascadeF w h tiles fuel s idx) (cascadeF w h tiles fuel t idx) := by
  intro fuel
  induction fuel with
  | zero => intro s t idx hst; exact hst
  | succ fuel ih =>
    intro s t idx hst
    obtain ⟨hlen, hopen⟩ := hst
    rw [cascadeF, cascadeF]
    have hguard : (tiles.length ≤ idx ∨ (s.getD idx blank).isOpen = true ∨
        tiles.getD idx Tile.empty = Tile.bomb) ↔
        (tiles.length ≤ idx ∨ (t.getD idx blank).isOpen = true ∨
        tiles.getD idx Tile.empty = Tile.bomb) := by
      rw [hopen idx]
    by_cases hg : tiles.length ≤ idx ∨ (s.getD idx blank).isOpen = true ∨
        tiles.getD idx Tile.empty = Tile.bomb
    · rw [if_pos hg, if_pos (hguard.mp hg)]
      exact ⟨hlen, hopen⟩
    · rw [if_neg hg, if_neg (fun hg' => hg (hguard.mpr hg'))]
      have hset : OpenEq (s.set idx { s.getD idx blank with isOpen := true })
          (t.set idx { t.getD idx blank with isOpen := true }) := by
        constructor
        · simp [hlen]
        · intro j
          by_cases hij : idx = j
          · subst hij
            by_cases hi : idx < s.length
            · rw [getD_set_self s idx _ blank hi,
                getD_set_self t idx _ blank (by omega)]
            · rw [List.set_eq_of_length_le (by omega),
                List.set_eq_of_length_le (show t.length ≤ idx by omega)]
              exact hopen idx
          · rw [getD_set_ne _ _ _ _ _ hij, getD_set_ne _ _ _ _ _ hij]
            exact hopen j
      by_cases he : tiles.getD idx Tile.empty = Tile.empty
      · rw [if_pos he, if_pos he]
        have hfold : ∀ (l : List Nat) (a b : List TileState), OpenEq a b →
            OpenEq (l.foldl (fun x n => cascadeF w h tiles fuel x n) a)
              (l.foldl (fun x n => cascadeF w h tiles fuel x n) b) := by
          intro l
          induction l with
          | nil => intro a b hab; exact hab
          | cons n rest ihl =>
            intro a b hab
            simp only [List.foldl_cons]
            exact ihl _ _ (ih a b n hab)
        exact hfold _ _ _ hset
      · rw [if_neg he, if_neg he]
        exact hset

/-! ### The cascade reveals exactly its reachable set -/

theorem cascadeSet_of_reach {w h : Nat} {tiles : List Tile} {start j : Nat}
    (hstart : start < w * h) (hempty : tiles.getD start Tile.empty = Tile.empty)
    (hr : ReachFrom w h tiles start j) (hnb : tiles.getD j Tile.empty ≠ Tile.bomb) :
    CascadeSet w h tiles start j := by
  cases hr with
  | refl => exact ⟨hnb, start, ReachFrom.refl start, hempty, self_mem_neighborsOf hstart⟩
  | tail hr' he' hn' => exact ⟨hnb, _, hr', he', hn'⟩

theorem cascadeSet_start {w h : Nat} {tiles : List Tile} {start : Nat}
    (hstart : start < w * h) (hempty : tiles.getD start Tile.empty = Tile.empty) :
    CascadeSet w h tiles start start :=
  ⟨(by rw [hempty]; intro hc; cases hc), start, ReachFrom.refl start, hempty,
    self_mem_neighborsOf hstart⟩

/-- Completeness of the flood fill: if every cell of the reachable set is
closed beforehand, the cascade opens the whole reachable set. -/
theorem cascade_complete {w h : Nat} {tiles : List Tile} {s : List TileState}
    {start : Nat} (hw : tiles.length = w * h) (hlen : tiles.length = s.length)
    (hstart : start < w * h) (hempty : tiles.getD start Tile.empty = Tile.empty)
    (hclosed : ∀ j, CascadeSet w h tiles start j → (s.getD j blank).isOpen = false) :
    ∀ j, CascadeSet w h tiles start j →
      ((cascade w h tiles s start).getD j blank).isOpen = true := by
  have hbudget : closedCount s ≤ s.length + 1 := (closedCount_le_length s).trans (by omega)
  have hregion : ∀ e, ReachFrom w h tiles start e →
      tiles.getD e Tile.empty = Tile.empty →
      ((cascade w h tiles s start).getD e blank).isOpen = true ∧
        (s.getD e blank).isOpen = false := by
    intro e hr
    induction hr with
    | refl =>
      intro he
      constructor
      · exact cascadeF_opens w h tiles hlen hbudget (by omega) (by rw [he]; intro hc; cases hc)
      · exact hclosed start (cascadeSet_start hstart hempty)
    | tail hr' he' hn' ihr =>
      intro he
      obtain ⟨hopen', hclosed'⟩ := ihr he'
      constructor
      · exact cascadeF_sat w h tiles hw (s.length + 1) s start hlen hbudget _ he'
          hopen' hclosed' _ hn' (by rw [he]; intro hc; cases hc)
      · exact hclosed _ ⟨(by rw [he]; intro hc; cases hc), _, hr', he', hn'⟩
  intro j hj
  obtain ⟨hnb, e, hr, he, hn⟩ := hj
  obtain ⟨hopen', hclosed'⟩ := hregion e hr he
  exact cascadeF_sat w h tiles hw (s.length + 1) s start hlen hbudget e he
    hopen' hclosed' j hn hnb

/-! ### Reveal-level support lemmas -/

theorem uncoverTile_natCast (w h : Nat) (tiles : List Tile) (states : List TileState)
    (i : Nat) (hi : i < states.length) :
    uncoverTile w h tiles states (i : Int) =
      some (uncoverTileAux w h tiles states i) := by
  unfold uncoverTile
  rw [if_pos ⟨by positivity, by exact_mod_cast hi⟩]
  rw [Int.toNat_natCast]

theorem revealBombs_getD (tiles : List Tile) (states : List TileState) (j : Nat) :
    (revealBombs tiles states).getD j blank =
      if j < states.length then
        (if tiles.getD j Tile.empty = Tile.bomb then
          { states.getD j blank with isOpen := true }
        else states.getD j blank)
      else blank := by
  unfold revealBombs
  rw [mapWithIndex_getD]
  simp only [Nat.zero_add]

theorem flagBombs_getD (tiles : List Tile) (states : List TileState) (j : Nat) :
    (flagBombs tiles states).getD j blank =
      if j < states.length then
        (if tiles.getD j Tile.empty = Tile.bomb then
          { states.getD j blank with isFlagged := true }
        else states.getD j blank)
      else blank := by
  unfold flagBombs
  rw [mapWithIndex_getD]
  simp only [Nat.zero_add]

theorem revealBombs_length (tiles : List Tile) (states : List TileState) :
    (revealBombs tiles states).length = states.length :=
  mapWithIndex_length _ _ _

theorem flagBombs_length (tiles : List Tile) (states : List TileState) :
    (flagBombs tiles states).length = states.length :=
  mapWithIndex_length _ _ _

theorem flagBombs_isOpen (tiles : List Tile) (states : List TileState) (j : Nat) :
    ((flagBombs tiles states).getD j blank).isOpen = (states.getD j blank).isOpen := by
  rw [flagBombs_getD]
  by_cases hj : j < states.length
  · rw [if_pos hj]
    by_cases hb : tiles.getD j Tile.empty = Tile.bomb
    · rw [if_pos hb]
    · rw [if_neg hb]
  · rw [if_neg hj, List.getD_eq_default _ _ (by omega)]

theorem unopenedNonBombs_flagBombs (tiles : List Tile) (s : List TileState) :
    unopenedNonBombs tiles (flagBombs tiles s) = unopenedNonBombs tiles s := by
  unfold unopenedNonBombs
  refine List.countP_congr ?_
  intro i _
  simp only [decide_eq_true_eq, flagBombs_isOpen]

theorem unopenedNonBombs_openEq {tiles : List Tile} {s t : List TileState}
    (hst : OpenEq s t) : unopenedNonBombs tiles s = unopenedNonBombs tiles t := by
  unfold unopenedNonBombs
  refine List.countP_congr ?_
  intro i _
  simp only [decide_eq_true_eq, hst.2 i]

theorem uncoverTileAux_length (w h : Nat) (tiles : List Tile) (states : List TileState)
    (i : Nat) : (uncoverTileAux w h tiles states i).1.length = states.length := by
  unfold uncoverTileAux
  by_cases hop : (states.getD i blank).isOpen = true
  · rw [if_pos hop]
  · rw [if_neg hop]
    by_cases hb : tiles.getD i Tile.empty = Tile.bomb
    · rw [if_pos hb]
      exact revealBombs_length tiles states
    · rw [if_neg hb]
      have hcas : (cascade w h tiles states i).length = states.length :=
        (cascadeF_evolves w h tiles (states.length + 1) states i).1
      by_cases hwin : unopenedNonBombs tiles (cascade w h tiles states i) = 0
      · rw [if_pos hwin]
        exact (flagBombs_length tiles _).trans hcas
      · rw [if_neg hwin]
        exact hcas

theorem uncoverTileAux_opens (w h : Nat) (tiles : List Tile) (states : List TileState)
    (i : Nat) (hlen : tiles.length = states.length) (hi : i < states.length) :
    ((uncoverTileAux w h tiles states i).1.getD i blank).isOpen = true := by
  unfold uncoverTileAux
  by_cases hop : (states.getD i blank).isOpen = true
  · rw [if_pos hop]
    exact hop
  · rw [if_neg hop]
    by_cases hb : tiles.getD i Tile.empty = Tile.bomb
    · rw [if_pos hb]
      show ((revealBombs tiles states).getD i blank).isOpen = true
      rw [revealBombs_getD, if_pos hi, if_pos hb]
    · rw [if_neg hb]
      have hcas : ((cascade w h tiles states i).getD i blank).isOpen = true := by
        unfold cascade
        exact cascadeF_opens w h tiles hlen
          ((closedCount_le_length states).trans (by omega)) (by omega) hb
      by_cases hwin : unopenedNonBombs tiles (cascade w h tiles states i) = 0
      · rw [if_pos hwin]
        show ((flagBombs tiles (cascade w h tiles states i)).getD i blank).isOpen = true
        rw [flagBombs_isOpen]
        exact hcas
      · rw [if_neg hwin]
        exact hcas

theorem uncoverTileAux_mono (w h : Nat) (tiles : List Tile) (states : List TileState)
    (i : Nat) :
    ∀ j, (states.getD j blank).isOpen = true →
      ((uncoverTileAux w h tiles states i).1.getD j blank).isOpen = true := by
  intro j hj
  unfold uncoverTileAux
  by_cases hop : (states.getD i blank).isOpen = true
  · rw [if_pos hop]
    exact hj
  · rw [if_neg hop]
    by_cases hb : tiles.getD i Tile.empty = Tile.bomb
    · rw [if_pos hb]
      show ((revealBombs tiles states).getD j blank).isOpen = true
      rw [revealBombs_getD]
      by_cases hjl : j < states.length
      · rw [if_pos hjl]
        by_cases hbj : tiles.getD j Tile.empty = Tile.bomb
        · rw [if_pos hbj]
        · rw [if_neg hbj]
          exact hj
      · rw [List.getD_eq_default _ _ (by omega)] at hj
        cases hj
    · rw [if_neg hb]
      have hcas : ((cascade w h tiles states i).getD j blank).isOpen = true :=
        (cascadeF_evolves w h tiles (states.length + 1) states i).2.2.1 j hj
      by_cases hwin : unopenedNonBombs tiles (cascade w h tiles states i) = 0
      · rw [if_pos hwin]
        show ((flagBombs tiles (cascade w h tiles states i)).getD j blank).isOpen = true
        rw [flagBombs_isOpen]
        exact hcas
      · rw [if_neg hwin]
        exact hcas

theorem uncoverTileAux_openEq (w h : Nat) (tiles : List Tile) (s t : List TileState)
    (i : Nat) (hst : OpenEq s t) :
    (uncoverTileAux w h tiles s i).2 = (uncoverTileAux w h tiles t i).2 ∧
      OpenEq (uncoverTileAux w h tiles s i).1 (uncoverTileAux w h tiles t i).1 := by
  obtain ⟨hlen, hopen⟩ := hst
  unfold uncoverTileAux
  by_cases hop : (s.getD i blank).isOpen = true
  · have hopt : (t.getD i blank).isOpen = true := by rw [← hopen i]; exact hop
    rw [if_pos hop, if_pos hopt]
    exact ⟨rfl, hlen, hopen⟩
  · have hopt : ¬(t.getD i blank).isOpen = true := by rw [← hopen i]; exact hop
    rw [if_neg hop, if_neg hopt]
    by_cases hb : tiles.getD i Tile.empty = Tile.bomb
    · rw [if_pos hb, if_pos hb]
      refine ⟨rfl, ?_, ?_⟩
      · rw [revealBombs_length, revealBombs_length]
        exact hlen
      · intro j
        rw [revealBombs_getD, revealBombs_getD]
        by_cases hj : j < s.length
        · have hjt : j < t.length := by omega
          rw [if_pos hj, if_pos hjt]
          by_cases hbj : tiles.getD j Tile.empty = Tile.bomb
          · rw [if_pos hbj, if_pos hbj]
          · rw [if_neg hbj, if_neg hbj]
            exact hopen j
        · have hjt : ¬j < t.length := by omega
          rw [if_neg hj, if_neg hjt]
    · rw [if_neg hb, if_neg hb]
      have hcaseq : OpenEq (cascade w h tiles s i) (cascade w h tiles t i) := by
        have h2 := cascadeF_openEq w h tiles (s.length + 1) s t i ⟨hlen, hopen⟩
        unfold cascade
        rw [← hlen]
        exact h2
      have hcnt : unopenedNonBombs tiles (cascade w h tiles s i) =
          unopenedNonBombs tiles (cascade w h tiles t i) :=
        unopenedNonBombs_openEq hcaseq
      by_cases hwin : unopenedNonBombs tiles (cascade w h tiles s i) = 0
      · rw [if_pos hwin, if_pos (by omega)]
        refine ⟨rfl, ?_, ?_⟩
        · rw [flagBombs_length, flagBombs_length]
          exact hcaseq.1
        · intro j
          rw [flagBombs_isOpen, flagBombs_isOpen]
          exact hcaseq.2 j
      · rw [if_neg hwin, if_neg (by omega)]
        exact ⟨rfl, hcaseq⟩

/-! ### Claim theorems -/

/-- C3: revealing an unrevealed `Mine` cell opens every mine cell, leaves
every non-mine cell's reveal status unchanged, leaves every flag
unchanged, and returns outcome `Lost`. -/
theorem C3_mine_reveal (w h : Nat) (tiles : List Tile) (states : List TileState)
    (i : Nat) (hlen : tiles.length = states.length) (hi : i < states.length)
    (hbomb : tiles.getD i Tile.empty = Tile.bomb)
    (hcl : (states.getD i blank).isOpen = false) :
    ∃ s', uncoverTile w h tiles states (i : Int) = some (s', Outcome.lost) ∧
      (∀ j, tiles.getD j Tile.empty = Tile.bomb → (s'.getD j blank).isOpen = true) ∧
      (∀ j, tiles.getD j Tile.empty ≠ Tile.bomb →
        (s'.getD j blank).isOpen = (states.getD j blank).isOpen) ∧
      (∀ j, (s'.getD j blank).isFlagged = (states.getD j blank).isFlagged) := by
  rw [uncoverTile_natCast w h tiles states i hi]
  unfold uncoverTileAux
  rw [if_neg (by rw [hcl]; simp), if_pos hbomb]
  refine ⟨revealBombs tiles states, rfl, ?_, ?_, ?_⟩
  · intro j hbj
    have hjt : j < tiles.length := by
      by_contra hge
      rw [List.getD_eq_default _ _ (by omega)] at hbj
      exact Tile.noConfusion hbj
    rw [revealBombs_getD, if_pos (by omega), if_pos hbj]
  · intro j hnbj
    rw [revealBombs_getD]
    by_cases hj : j < states.length
    · rw [if_pos hj, if_neg hnbj]
    · rw [if_neg hj, List.getD_eq_default _ _ (by omega)]
  · intro j
    rw [revealBombs_getD]
    by_cases hj : j < states.length
    · rw [if_pos hj]
      by_cases hbj : tiles.getD j Tile.empty = Tile.bomb
      · rw [if_pos hbj]
      · rw [if_neg hbj]
    · rw [if_neg hj, List.getD_eq_default _ _ (by omega)]

/-- C3 witness: on the 2-by-1 board `[number 1, bomb]` with nothing yet
revealed, revealing index 1 discloses the mine and loses. -/
theorem C3_mine_reveal_witness :
    (([Tile.number 1, Tile.bomb] : List Tile).length =
        ([blank, blank] : List TileState).length) ∧
    (1 < ([blank, blank] : List TileState).length) ∧
    (([Tile.number 1, Tile.bomb] : List Tile).getD 1 Tile.empty = Tile.bomb) ∧
    ((([blank, blank] : List TileState).getD 1 blank).isOpen = false) ∧
    (∃ s', uncoverTile 2 1 [Tile.number 1, Tile.bomb] [blank, blank] (1 : Nat) =
        some (s', Outcome.lost) ∧
      (∀ j, ([Tile.number 1, Tile.bomb] : List Tile).getD j Tile.empty = Tile.bomb →
        (s'.getD j blank).isOpen = true) ∧
      (∀ j, ([Tile.number 1, Tile.bomb] : List Tile).getD j Tile.empty ≠ Tile.bomb →
        (s'.getD j blank).isOpen =
          ((([blank, blank] : List TileState)).getD j blank).isOpen) ∧
      (∀ j, (s'.getD j blank).isFlagged =
        ((([blank, blank] : List TileState)).getD j blank).isFlagged)) :=
  ⟨rfl, by decide, rfl, rfl,
    C3_mine_reveal 2 1 [Tile.number 1, Tile.bomb] [blank, blank] 1 rfl
      (by decide) rfl rfl⟩

/-- C6: revealing an already-revealed cell is a no-op that reports
`inProgress` without re-running the win/loss logic, and revealing the
same index twice leaves the state after the second call identical to the
state after the first. -/
theorem C6_reveal_idempotent (w h : Nat) (tiles : List Tile) (states : List TileState)
    (i : Nat) (hlen : tiles.length = states.length) (hi : i < states.length) :
    ((states.getD i blank).isOpen = true →
      uncoverTile w h tiles states (i : Int) = some (states, Outcome.inProgress)) ∧
    (∀ s1 o1, uncoverTile w h tiles states (i : Int) = some (s1, o1) →
      uncoverTile w h tiles s1 (i : Int) = some (s1, Outcome.inProgress)) := by
  constructor
  · intro hop
    rw [uncoverTile_natCast w h tiles states i hi]
    unfold uncoverTileAux
    rw [if_pos hop]
  · intro s1 o1 hsome
    rw [uncoverTile_natCast w h tiles states i hi] at hsome
    have heq := Option.some.inj hsome
    have h1 : (uncoverTileAux w h tiles states i).1 = s1 := by rw [heq]
    have hopen : (s1.getD i blank).isOpen = true := by
      rw [← h1]
      exact uncoverTileAux_opens w h tiles states i hlen hi
    have hlen1 : s1.length = states.length := by
      rw [← h1]
      exact uncoverTileAux_length w h tiles states i
    rw [uncoverTile_natCast w h tiles s1 i (by omega)]
    unfold uncoverTileAux
    rw [if_pos hopen]

/-- C6 witness: a 1-by-1ish concrete run of both conjuncts on the board
`[number 1, bomb]`. -/
theorem C6_reveal_idempotent_witness :
    (([Tile.number 1, Tile.bomb] : List Tile).length =
        ([⟨true, false⟩, blank] : List TileState).length) ∧
    (0 < ([⟨true, false⟩, blank] : List TileState).length) ∧
    (((([⟨true, false⟩, blank] : List TileState)).getD 0 blank).isOpen = true →
      uncoverTile 2 1 [Tile.number 1, Tile.bomb] [⟨true, false⟩, blank] (0 : Nat) =
        some ([⟨true, false⟩, blank], Outcome.inProgress)) ∧
    (∀ s1 o1, uncoverTile 2 1 [Tile.number 1, Tile.bomb] [⟨true, false⟩, blank]
        (0 : Nat) = some (s1, o1) →
      uncoverTile 2 1 [Tile.number 1, Tile.bomb] s1 (0 : Nat) =
        some (s1, Outcome.inProgress)) := by
  have hmain := C6_reveal_idempotent 2 1 [Tile.number 1, Tile.bomb]
    [⟨true, false⟩, blank] 0 rfl (by decide)
  exact ⟨rfl, by decide, hmain.1, hmain.2⟩

/-- C7: `toggleFlag` on an in-range index flips exactly that cell's flag
(also when the cell is already revealed), changes no other field of any
cell, and produces no game outcome (its result type carries no
`Outcome`). -/
theorem C7_toggleFlag_frame (states : List TileState) (i : Nat)
    (hi : i < states.length) :
    ∃ s', toggleFlag states (i : Int) = some s' ∧
      s'.length = states.length ∧
      (s'.getD i blank).isFlagged = !(states.getD i blank).isFlagged ∧
      (s'.getD i blank).isOpen = (states.getD i blank).isOpen ∧
      ∀ j, j ≠ i → s'.getD j blank = states.getD j blank := by
  unfold toggleFlag
  rw [if_pos ⟨by positivity, by exact_mod_cast hi⟩]
  simp only [Int.toNat_natCast]
  refine ⟨_, rfl, List.length_set states i _, ?_, ?_, ?_⟩
  · rw [getD_set_self states i _ blank hi]
  · rw [getD_set_self states i _ blank hi]
  · intro j hj
    rw [getD_set_ne _ _ _ _ _ (fun hc => hj hc.symm)]

/-- C7 witness: flipping the flag of an already-revealed cell. -/
theorem C7_toggleFlag_frame_witness :
    (0 < ([⟨true, true⟩, blank] : List TileState).length) ∧
    (∃ s', toggleFlag ([⟨true, true⟩, blank] : List TileState) (0 : Nat) = some s' ∧
      s'.length = ([⟨true, true⟩, blank] : List TileState).length ∧
      (s'.getD 0 blank).isFlagged =
        !((([⟨true, true⟩, blank] : List TileState)).getD 0 blank).isFlagged ∧
      (s'.getD 0 blank).isOpen =
        ((([⟨true, true⟩, blank] : List TileState)).getD 0 blank).isOpen ∧
      ∀ j, j ≠ 0 → s'.getD j blank =
        (([⟨true, true⟩, blank] : List TileState)).getD j blank) :=
  ⟨by decide, C7_toggleFlag_frame [⟨true, true⟩, blank] 0 (by decide)⟩

/-- C8: `revealed` is monotonic — any cell open before a `reveal` or
`toggleFlag` action (on any index, any state) is still open after it. -/
theorem C8_revealed_monotone (w h : Nat) (tiles : List Tile) (states : List TileState)
    (index : Int) :
    (∀ s' o, uncoverTile w h tiles states index = some (s', o) →
      ∀ j, (states.getD j blank).isOpen = true → (s'.getD j blank).isOpen = true) ∧
    (∀ s', toggleFlag states index = some s' →
      ∀ j, (states.getD j blank).isOpen = true → (s'.getD j blank).isOpen = true) := by
  constructor
  · intro s' o hsome j hj
    unfold uncoverTile at hsome
    by_cases hg : 0 ≤ index ∧ index < (states.length : Int)
    · rw [if_pos hg] at hsome
      have heq := Option.some.inj hsome
      have h1 : (uncoverTileAux w h tiles states index.toNat).1 = s' := by rw [heq]
      rw [← h1]
      exact uncoverTileAux_mono w h tiles states index.toNat j hj
    · rw [if_neg hg] at hsome
      cases hsome
  · intro s' hsome j hj
    unfold toggleFlag at hsome
    by_cases hg : 0 ≤ index ∧ index < (states.length : Int)
    · rw [if_pos hg] at hsome
      have heq := Option.some.inj hsome
      rw [← heq]
      by_cases hij : index.toNat = j
      · subst hij
        have hlt : index.toNat < states.length := by
          obtain ⟨h1, h2⟩ := hg
          omega
        rw [getD_set_self states index.toNat _ blank hlt]
        exact hj
      · rw [getD_set_ne _ _ _ _ _ hij]
        exact hj
    · rw [if_neg hg] at hsome
      cases hsome

/-- C8 witness: the monotonicity conclusion instantiated on a concrete
lost game and a concrete flag toggle. -/
theorem C8_revealed_monotone_witness :
    ((([⟨true, false⟩, ⟨true, false⟩] : List TileState)).getD 0 blank).isOpen = true ∧
    ((([⟨true, false⟩, ⟨false, true⟩] : List TileState)).getD 0 blank).isOpen = true := by
  have hmain := C8_revealed_monotone 2 1 [Tile.number 1, Tile.bomb]
    [⟨true, false⟩, blank] 1
  constructor
  · exact hmain.1 [⟨true, false⟩, ⟨true, false⟩] Outcome.lost (by decide) 0 rfl
  · exact hmain.2 [⟨true, false⟩, ⟨false, true⟩] (by decide) 0 rfl

/-- C9: the cascade terminates — its fuel-indexed unfolding is already
at its fixpoint at any depth of at least the number of closed cells
(which is at most `width * height`), so each cell is opened at most once
and the traversal never needs more than one visit per cell. -/
theorem C9_cascade_terminates (w h : Nat) (tiles : List Tile) (s : List TileState)
    (idx : Nat) (hlen : tiles.length = s.length) :
    closedCount s ≤ s.length ∧
    ∀ fuel, closedCount s ≤ fuel →
      cascadeF w h tiles fuel s idx = cascade w h tiles s idx :=
  ⟨closedCount_le_length s, fun _ hf => cascadeF_eq_cascade hlen hf⟩

/-- C9 witness: on a concrete 5-by-1 board, fuel 5 (the cell count)
already computes the full cascade. -/
theorem C9_cascade_terminates_witness :
    closedCount ([blank, blank, blank, blank, blank] : List TileState) ≤
      ([blank, blank, blank, blank, blank] : List TileState).length ∧
    cascadeF 5 1 [Tile.empty, Tile.empty, Tile.empty, Tile.number 1, Tile.bomb] 5
        [blank, blank, blank, blank, blank] 0 =
      cascade 5 1 [Tile.empty, Tile.empty, Tile.empty, Tile.number 1, Tile.bomb]
        [blank, blank, blank, blank, blank] 0 := by
  have hmain := C9_cascade_terminates 5 1
    [Tile.empty, Tile.empty, Tile.empty, Tile.number 1, Tile.bomb]
    [blank, blank, blank, blank, blank] 0 rfl
  exact ⟨hmain.1, hmain.2 5 (by decide)⟩

/-- C10: `reveal` and `toggleFlag` on an index outside
`[0, width * height)` fail fast (the modelled `TypeError` / `none`)
without clamping the index or touching any state. -/
theorem C10_out_of_range_fails (w h : Nat) (tiles : List Tile)
    (states : List TileState) (index : Int) (hwf : states.length = w * h)
    (hout : index < 0 ∨ ((w * h : Nat) : Int) ≤ index) :
    uncoverTile w h tiles states index = none ∧ toggleFlag states index = none := by
  have hcast : ((states.length : Nat) : Int) = ((w * h : Nat) : Int) := by rw [hwf]
  constructor
  · unfold uncoverTile
    rw [if_neg]
    intro hcon
    rcases hout with h1 | h1
    · omega
    · rw [hcast] at hcon
      omega
  · unfold toggleFlag
    rw [if_neg]
    intro hcon
    rcases hout with h1 | h1
    · omega
    · rw [hcast] at hcon
      omega

/-- C10 witness: index 5 on a 1-by-1 board makes both operations fail,
and so does a negative index. -/
theorem C10_out_of_range_fails_witness :
    (([blank] : List TileState).length = 1 * 1) ∧
    (uncoverTile 1 1 [Tile.bomb] [blank] 5 = none ∧ toggleFlag [blank] 5 = none) ∧
    (uncoverTile 1 1 [Tile.bomb] [blank] (-3) = none ∧
      toggleFlag [blank] (-3) = none) :=
  ⟨rfl,
    C10_out_of_range_fails 1 1 [Tile.bomb] [blank] 5 rfl (Or.inr (by decide)),
    C10_out_of_range_fails 1 1 [Tile.bomb] [blank] (-3) rfl (Or.inl (by decide))⟩

/-- C5: flags are purely cosmetic — two states that agree on every
`isOpen` field (and may differ arbitrarily on flags) produce, for any
revealed index, the same failure/success, the same outcome, and the same
revealed set. -/
theorem C5_flags_cosmetic (w h : Nat) (tiles : List Tile) (s t : List TileState)
    (index : Int) (hlen : s.length = t.length)
    (hopen : ∀ j, (s.getD j blank).isOpen = (t.getD j blank).isOpen) :
    (uncoverTile w h tiles s index = none ↔ uncoverTile w h tiles t index = none) ∧
    (∀ r1 r2, uncoverTile w h tiles s index = some r1 →
      uncoverTile w h tiles t index = some r2 →
      r1.2 = r2.2 ∧ ∀ j, (r1.1.getD j blank).isOpen = (r2.1.getD j blank).isOpen) := by
  unfold uncoverTile
  by_cases hg : 0 ≤ index ∧ index < (s.length : Int)
  · have hgt : 0 ≤ index ∧ index < (t.length : Int) := by rw [← hlen]; exact hg
    rw [if_pos hg, if_pos hgt]
    constructor
    · constructor <;> (intro hc; cases hc)
    · intro r1 r2 h1 h2
      have e1 := Option.some.inj h1
      have e2 := Option.some.inj h2
      rw [← e1, ← e2]
      have hbisim := uncoverTileAux_openEq w h tiles s t index.toNat ⟨hlen, hopen⟩
      exact ⟨hbisim.1, hbisim.2.2⟩
  · have hgt : ¬(0 ≤ index ∧ index < (t.length : Int)) := by rw [← hlen]; exact hg
    rw [if_neg hg, if_neg hgt]
    constructor
    · exact Iff.rfl
    · intro r1 r2 h1 h2
      cases h1

/-- C5 witness: the fully-flagged and unflagged 5-by-1 board produce the
same revealed set and outcome when revealing the empty cell 0. -/
theorem C5_flags_cosmetic_witness :
    (([blank, blank, blank, blank, blank] : List TileState).length =
      ([⟨false, true⟩, ⟨false, true⟩, ⟨false, true⟩, ⟨false, true⟩, ⟨false, true⟩] :
        List TileState).length) ∧
    (∀ r1 r2,
      uncoverTile 5 1 [Tile.empty, Tile.empty, Tile.empty, Tile.number 1, Tile.bomb]
        [blank, blank, blank, blank, blank] 0 = some r1 →
      uncoverTile 5 1 [Tile.empty, Tile.empty, Tile.empty, Tile.number 1, Tile.bomb]
        [⟨false, true⟩, ⟨false, true⟩, ⟨false, true⟩, ⟨false, true⟩, ⟨false, true⟩] 0 =
        some r2 →
      r1.2 = r2.2 ∧ ∀ j, (r1.1.getD j blank).isOpen = (r2.1.getD j blank).isOpen) := by
  have hmain := C5_flags_cosmetic 5 1
    [Tile.empty, Tile.empty, Tile.empty, Tile.number 1, Tile.bomb]
    [blank, blank, blank, blank, blank]
    [⟨false, true⟩, ⟨false, true⟩, ⟨false, true⟩, ⟨false, true⟩, ⟨false, true⟩] 0
    rfl ?_
  · exact ⟨rfl, hmain.2⟩
  · intro j
    match j with
    | 0 => rfl
    | 1 => rfl
    | 2 => rfl
    | 3 => rfl
    | 4 => rfl
    | n + 5 => rfl

/-- C4: after a reveal of an unrevealed non-mine cell, outcome `Won` is
returned exactly when no unopened non-mine cell remains, in which case
every mine cell gets auto-flagged; otherwise the outcome is `InProgress`
and no flag changes. -/
theorem C4_win_detection (w h : Nat) (tiles : List Tile) (states : List TileState)
    (i : Nat) (hlen : tiles.length = states.length) (hi : i < states.length)
    (hnb : tiles.getD i Tile.empty ≠ Tile.bomb)
    (hcl : (states.getD i blank).isOpen = false) :
    ∃ s' o, uncoverTile w h tiles states (i : Int) = some (s', o) ∧
      (unopenedNonBombs tiles s' = 0 →
        o = Outcome.won ∧
          ∀ j, tiles.getD j Tile.empty = Tile.bomb →
            (s'.getD j blank).isFlagged = true) ∧
      (unopenedNonBombs tiles s' ≠ 0 →
        o = Outcome.inProgress ∧
          ∀ j, (s'.getD j blank).isFlagged = (states.getD j blank).isFlagged) := by
  rw [uncoverTile_natCast w h tiles states i hi]
  unfold uncoverTileAux
  rw [if_neg (by rw [hcl]; simp), if_neg hnb]
  have hcaslen : (cascade w h tiles states i).length = states.length :=
    (cascadeF_evolves w h tiles (states.length + 1) states i).1
  by_cases hwin : unopenedNonBombs tiles (cascade w h tiles states i) = 0
  · rw [if_pos hwin]
    refine ⟨flagBombs tiles (cascade w h tiles states i), Outcome.won, rfl, ?_, ?_⟩
    · intro _
      refine ⟨rfl, ?_⟩
      intro j hbj
      have hjt : j < tiles.length := by
        by_contra hge
        rw [List.getD_eq_default _ _ (by omega)] at hbj
        exact Tile.noConfusion hbj
      rw [flagBombs_getD, if_pos (by omega), if_pos hbj]
    · intro hcon
      rw [unopenedNonBombs_flagBombs] at hcon
      exact absurd hwin hcon
  · rw [if_neg hwin]
    refine ⟨cascade w h tiles states i, Outcome.inProgress, rfl, ?_, ?_⟩
    · intro hcon
      exact absurd hcon hwin
    · intro _
      exact ⟨rfl, fun j =>
        (cascadeF_evolves w h tiles (states.length + 1) states i).2.1 j⟩

/-- C4 witness: the spec's 2-by-1 scenario — one mine, one safe `number`
cell; revealing the safe cell wins and auto-flags the mine. -/
theorem C4_win_detection_witness :
    (([Tile.number 1, Tile.bomb] : List Tile).length =
      ([blank, blank] : List TileState).length) ∧
    (uncoverTile 2 1 [Tile.number 1, Tile.bomb] [blank, blank] (0 : Nat) =
      some ([⟨true, false⟩, ⟨false, true⟩], Outcome.won)) ∧
    (∃ s' o, uncoverTile 2 1 [Tile.number 1, Tile.bomb] [blank, blank] (0 : Nat) =
        some (s', o) ∧
      (unopenedNonBombs [Tile.number 1, Tile.bomb] s' = 0 →
        o = Outcome.won ∧
          ∀ j, ([Tile.number 1, Tile.bomb] : List Tile).getD j Tile.empty = Tile.bomb →
            (s'.getD j blank).isFlagged = true) ∧
      (unopenedNonBombs [Tile.number 1, Tile.bomb] s' ≠ 0 →
        o = Outcome.inProgress ∧
          ∀ j, (s'.getD j blank).isFlagged =
            ((([blank, blank] : List TileState)).getD j blank).isFlagged)) :=
  ⟨rfl, by decide,
    C4_win_detection 2 1 [Tile.number 1, Tile.bomb] [blank, blank] 0 rfl
      (by decide) (by decide) rfl⟩

/-- C1 counterexample: on the 5-by-1 board
`[empty, empty, empty, number 1, bomb]` with cell 1 already revealed,
cell 0 is an unrevealed `Empty` cell and cell 2 belongs to the connected
zero-region of cell 0 (`CascadeSet`), yet revealing cell 0 leaves cell 2
unrevealed: the already-revealed cell 1 stops the recursion, so the
claim's "exactly the connected zero-region plus its bordering numbers"
fails on boards with previously revealed cells. -/
theorem C1_counterexample :
    ([Tile.empty, Tile.empty, Tile.empty, Tile.number 1, Tile.bomb] :
      List Tile).getD 0 Tile.empty = Tile.empty ∧
    ((([⟨false, false⟩, ⟨true, false⟩, ⟨false, false⟩, ⟨false, false⟩,
      ⟨false, false⟩] : List TileState)).getD 0 blank).isOpen = false ∧
    CascadeSet 5 1 [Tile.empty, Tile.empty, Tile.empty, Tile.number 1, Tile.bomb] 0 2 ∧
    uncoverTile 5 1 [Tile.empty, Tile.empty, Tile.empty, Tile.number 1, Tile.bomb]
      [⟨false, false⟩, ⟨true, false⟩, ⟨false, false⟩, ⟨false, false⟩, ⟨false, false⟩]
      0 =
      some ([⟨true, false⟩, ⟨true, false⟩, ⟨false, false⟩, ⟨false, false⟩,
        ⟨false, false⟩], Outcome.inProgress) ∧
    ((([⟨true, false⟩, ⟨true, false⟩, ⟨false, false⟩, ⟨false, false⟩,
      ⟨false, false⟩] : List TileState)).getD 2 blank).isOpen = false := by
  refine ⟨rfl, rfl, ?_, by decide, rfl⟩
  exact ⟨by decide, 1, ReachFrom.tail (ReachFrom.refl 0) rfl (by decide), rfl, by decide⟩

/-- C1 (amended): when every cell of the connected zero-region of the
clicked `Empty` cell and of its non-mine border is still unrevealed,
revealing the cell marks revealed exactly on that region plus border
(`CascadeSet`), and no mine cell's reveal status changes. -/
theorem C1_cascade_exact (w h : Nat) (tiles : List Tile) (states : List TileState)
    (start : Nat) (hw : tiles.length = w * h) (hs : states.length = w * h)
    (hstart : start < w * h) (hempty : tiles.getD start Tile.empty = Tile.empty)
    (hclosed : ∀ j, CascadeSet w h tiles start j →
      (states.getD j blank).isOpen = false) :
    ∃ s' o, uncoverTile w h tiles states (start : Int) = some (s', o) ∧
      (∀ j, (s'.getD j blank).isOpen = true ↔
        ((states.getD j blank).isOpen = true ∨ CascadeSet w h tiles start j)) ∧
      (∀ j, tiles.getD j Tile.empty = Tile.bomb →
        (s'.getD j blank).isOpen = (states.getD j blank).isOpen) := by
  have hlen : tiles.length = states.length := by omega
  have hstartlen : start < states.length := by omega
  rw [uncoverTile_natCast w h tiles states start hstartlen]
  unfold uncoverTileAux
  have hscl : (states.getD start blank).isOpen = false :=
    hclosed start (cascadeSet_start hstart hempty)
  rw [if_neg (by rw [hscl]; simp), if_neg (by rw [hempty]; intro hc; cases hc)]
  have hkey : ∀ j, ((cascade w h tiles states start).getD j blank).isOpen = true ↔
      ((states.getD j blank).isOpen = true ∨ CascadeSet w h tiles start j) := by
    intro j
    constructor
    · intro hj
      have hsound := cascadeF_sound w h tiles (states.length + 1) states start j hj
      rcases hsound with hstates | ⟨hr, hnb, _⟩
      · exact Or.inl hstates
      · exact Or.inr (cascadeSet_of_reach hstart hempty hr hnb)
    · intro hj
      rcases hj with hstates | hcs
      · exact (cascadeF_evolves w h tiles (states.length + 1) states start).2.2.1
          j hstates
      · exact cascade_complete hw hlen hstart hempty hclosed j hcs
  have hbombkey : ∀ j, tiles.getD j Tile.empty = Tile.bomb →
      ((cascade w h tiles states start).getD j blank).isOpen =
        (states.getD j blank).isOpen :=
    fun j hbj =>
      (cascadeF_evolves w h tiles (states.length + 1) states start).2.2.2 j hbj
  by_cases hwin : unopenedNonBombs tiles (cascade w h tiles states start) = 0
  · rw [if_pos hwin]
    refine ⟨_, _, rfl, ?_, ?_⟩
    · intro j
      rw [flagBombs_isOpen]
      exact hkey j
    · intro j hbj
      rw [flagBombs_isOpen]
      exact hbombkey j hbj
  · rw [if_neg hwin]
    exact ⟨_, _, rfl, hkey, hbombkey⟩

/-- C1 witness: the amended theorem applied to the fresh
(all-unrevealed) 5-by-1 board at its `Empty` cell 0. -/
theorem C1_cascade_exact_witness :
    (([Tile.empty, Tile.empty, Tile.empty, Tile.number 1, Tile.bomb] :
      List Tile).getD 0 Tile.empty = Tile.empty) ∧
    (∃ s' o, uncoverTile 5 1
        [Tile.empty, Tile.empty, Tile.empty, Tile.number 1, Tile.bomb]
        [blank, blank, blank, blank, blank] (0 : Nat) = some (s', o) ∧
      (∀ j, (s'.getD j blank).isOpen = true ↔
        ((([blank, blank, blank, blank, blank] : List TileState).getD j
          blank).isOpen = true ∨
          CascadeSet 5 1
            [Tile.empty, Tile.empty, Tile.empty, Tile.number 1, Tile.bomb] 0 j)) ∧
      (∀ j, ([Tile.empty, Tile.empty, Tile.empty, Tile.number 1, Tile.bomb] :
          List Tile).getD j Tile.empty = Tile.bomb →
        (s'.getD j blank).isOpen =
          (([blank, blank, blank, blank, blank] : List TileState).getD j
            blank).isOpen)) := by
  refine ⟨rfl, ?_⟩
  refine C1_cascade_exact 5 1
    [Tile.empty, Tile.empty, Tile.empty, Tile.number 1, Tile.bomb]
    [blank, blank, blank, blank, blank] 0 rfl rfl (by decide) rfl ?_
  intro j _
  match j with
  | 0 => rfl
  | 1 => rfl
  | 2 => rfl
  | 3 => rfl
  | 4 => rfl
  | n + 5 => rfl

/-! ### Board generation invariants -/

theorem placeBombs_spec (numBombs : Nat) (rand : Nat → Nat) :
    ∀ (fuel k bp : Nat) (ps ps' : List Tile), bp ≤ numBombs →
      ps.countP (fun t => decide (t = Tile.bomb)) = bp →
      placeBombs numBombs rand fuel k bp ps = some ps' →
      ps'.countP (fun t => decide (t = Tile.bomb)) = numBombs ∧
        ps'.length = ps.length := by
  intro fuel
  induction fuel with
  | zero =>
    intro k bp ps ps' hle hcount hsome
    rw [placeBombs] at hsome
    by_cases hq : numBombs ≤ bp
    · rw [if_pos hq] at hsome
      obtain rfl := Option.some.inj hsome
      exact ⟨by omega, rfl⟩
    · rw [if_neg hq] at hsome
      cases hsome
  | succ fuel ih =>
    intro k bp ps ps' hle hcount hsome
    rw [placeBombs] at hsome
    by_cases hq : numBombs ≤ bp
    · rw [if_pos hq] at hsome
      obtain rfl := Option.some.inj hsome
      exact ⟨by omega, rfl⟩
    · rw [if_neg hq] at hsome
      by_cases hemp : ps.getD (rand k) Tile.bomb = Tile.empty
      · rw [if_pos hemp] at hsome
        have hrlt : rand k < ps.length := by
          by_contra hge
          rw [List.getD_eq_default _ _ (by omega)] at hemp
          exact Tile.noConfusion hemp
        have hacc := countP_set_acc (fun t => decide (t = Tile.bomb)) ps (rand k)
          Tile.bomb Tile.bomb hrlt
        rw [hemp] at hacc
        simp at hacc
        have hcount' : (ps.set (rand k) Tile.bomb).countP
            (fun t => decide (t = Tile.bomb)) = bp + 1 := by omega
        obtain ⟨h1, h2⟩ := ih (k + 1) (bp + 1) _ ps' (by omega) hcount' hsome
        exact ⟨h1, by rw [h2, List.length_set]⟩
      · rw [if_neg hemp] at hsome
        exact ih (k + 1) bp ps ps' (by omega) hcount hsome

theorem countAdjacentBombs_eq_spec (w h : Nat) (ps : List Tile) (i : Nat)
    (hi : i < w * h) (hnb : ps.getD i Tile.empty ≠ Tile.bomb) :
    countAdjacentBombs w h ps i = specMineNeighborCount w h ps i := by
  have hwpos : 0 < w := by
    have hwh : 0 < w * h := Nat.zero_lt_of_lt hi
    exact Nat.pos_of_ne_zero (fun h0 => by simp [h0] at hwh)
  have hrow : i / w < h :=
    Nat.div_lt_iff_lt_mul hwpos |>.mpr (hi.trans_eq (Nat.mul_comm w h))
  have key : w * (i / w) + i % w = i := Nat.div_add_mod i w
  have key2 : i / w * w + i % w = i := by rw [Nat.mul_comm (i / w) w]; exact key
  have keyInt : ((i / w : Nat) : Int) * (w : Int) + ((i % w : Nat) : Int) = (i : Int) := by
    exact_mod_cast key2
  have hval : (((rowOf w i + 0) * w + (colOf w i + 0)).toNat) = i := by
    rw [add_zero, add_zero]
    unfold rowOf colOf
    rw [keyInt]
    exact Int.toNat_natCast i
  have hcenter : decide (0 ≤ rowOf w i + 0 ∧ rowOf w i + 0 < (h : Int) ∧
      0 ≤ colOf w i + 0 ∧ colOf w i + 0 < (w : Int) ∧
      ps.getD (((rowOf w i + 0) * w + (colOf w i + 0)).toNat)
        Tile.empty = Tile.bomb) = false := by
    rw [decide_eq_false_iff_not]
    rintro ⟨-, -, -, -, hb⟩
    rw [hval] at hb
    exact hnb hb
  unfold countAdjacentBombs specMineNeighborCount offsets
  simp only [List.countP_cons, List.countP_nil]
  rw [hcenter]
  simp

/-- C2: every successfully generated board has exactly `mineCount` mine
cells, and every non-mine cell's kind matches the spec-side recount of
its 8-directional neighbourhood (3-by-3 block minus the centre, clipped
at the edges): `Number(count)` when the count is positive, else
`Empty`. -/
theorem C2_generate_spec (w h numBombs : Nat) (rand : Nat → Nat) (fuel : Nat)
    (tiles : List Tile) (hw1 : 1 ≤ w) (hh1 : 1 ≤ h) (hb1 : 1 ≤ numBombs)
    (hb2 : numBombs ≤ w * h - 1)
    (hgen : generateInitialGrid w h numBombs rand fuel = some tiles) :
    tiles.length = w * h ∧
    tiles.countP (fun t => decide (t = Tile.bomb)) = numBombs ∧
    ∀ i, i < w * h → tiles.getD i Tile.empty ≠ Tile.bomb →
      tiles.getD i Tile.empty =
        (if 0 < specMineNeighborCount w h tiles i then
          Tile.number (specMineNeighborCount w h tiles i)
        else Tile.empty) := by
  unfold generateInitialGrid at hgen
  cases hplace : placeBombs numBombs rand fuel 0 0
      (List.replicate (w * h) Tile.empty) with
  | none =>
    rw [hplace] at hgen
    cases hgen
  | some ps =>
    rw [hplace] at hgen
    have htiles := (Option.some.inj hgen).symm
    have hrep : (List.replicate (w * h) Tile.empty).countP
        (fun t => decide (t = Tile.bomb)) = 0 := by
      refine List.countP_eq_zero.mpr ?_
      intro a ha
      rw [List.eq_of_mem_replicate ha]
      simp
    obtain ⟨hcnt, hlen⟩ :=
      placeBombs_spec numBombs rand fuel 0 0 _ ps (by omega) hrep hplace
    rw [List.length_replicate] at hlen
    have hf : ∀ (n : Nat) (a : Tile),
        (fun t => decide (t = Tile.bomb))
          ((fun index tile =>
            match tile with
            | Tile.bomb => Tile.bomb
            | _ =>
              if 0 < countAdjacentBombs w h ps index then
                Tile.number (countAdjacentBombs w h ps index)
              else Tile.empty) n a) =
          (fun t => decide (t = Tile.bomb)) a := by
      intro n a
      cases a with
      | bomb => rfl
      | number m =>
        dsimp only
        split <;> rfl
      | empty =>
        dsimp only
        split <;> rfl
    refine ⟨?_, ?_, ?_⟩
    · rw [htiles, mapWithIndex_length, hlen]
    · rw [htiles, countP_mapWithIndex _ _ hf, hcnt]
    · intro i hi hnbi
      have higet : tiles.getD i Tile.empty =
          (fun index tile =>
            match tile with
            | Tile.bomb => Tile.bomb
            | _ =>
              if 0 < countAdjacentBombs w h ps index then
                Tile.number (countAdjacentBombs w h ps index)
              else Tile.empty) i (ps.getD i Tile.empty) := by
        rw [htiles, mapWithIndex_getD, if_pos (by omega)]
        simp only [Nat.zero_add]
      have hpsnb : ps.getD i Tile.empty ≠ Tile.bomb := by
        intro hb
        apply hnbi
        rw [higet, hb]
      have hbombeq : ∀ n, (tiles.getD n Tile.empty = Tile.bomb) ↔
          (ps.getD n Tile.empty = Tile.bomb) := by
        intro n
        by_cases hn : n < ps.length
        · have hng : tiles.getD n Tile.empty =
              (fun index tile =>
                match tile with
                | Tile.bomb => Tile.bomb
                | _ =>
                  if 0 < countAdjacentBombs w h ps index then
                    Tile.number (countAdjacentBombs w h ps index)
                  else Tile.empty) n (ps.getD n Tile.empty) := by
            rw [htiles, mapWithIndex_getD, if_pos hn]
            simp only [Nat.zero_add]
          rw [hng]
          cases hcase : ps.getD n Tile.empty with
          | bomb => simp
          | number m =>
            dsimp only
            split <;> simp
          | empty =>
            dsimp only
            split <;> simp
        · have h1 : tiles.getD n Tile.empty = Tile.empty := by
            rw [htiles, mapWithIndex_getD, if_neg hn]
          have h2 : ps.getD n Tile.empty = Tile.empty :=
            List.getD_eq_default _ _ (by omega)
          rw [h1, h2]
      have hspec_eq : specMineNeighborCount w h tiles i =
          specMineNeighborCount w h ps i := by
        unfold specMineNeighborCount
        refine List.countP_congr ?_
        intro p hp
        simp only [decide_eq_true_eq]
        constructor
        · rintro ⟨a, b, c, d, e⟩
          exact ⟨a, b, c, d, (hbombeq _).mp e⟩
        · rintro ⟨a, b, c, d, e⟩
          exact ⟨a, b, c, d, (hbombeq _).mpr e⟩
      have hbridge := countAdjacentBombs_eq_spec w h ps i hi hpsnb
      rw [higet]
      cases hcase : ps.getD i Tile.empty with
      | bomb => exact absurd hcase hpsnb
      | number m =>
        dsimp only
        rw [hbridge, ← hspec_eq]
      | empty =>
        dsimp only
        rw [hbridge, ← hspec_eq]

/-- C2 witness: a concrete 2-by-2 generation run (the first random draw
places the single mine at index 0) satisfies the mine-count and recount
properties. -/
theorem C2_generate_spec_witness :
    (generateInitialGrid 2 2 1 (fun _ => 0) 1 =
      some [Tile.bomb, Tile.number 1, Tile.number 1, Tile.number 1]) ∧
    (([Tile.bomb, Tile.number 1, Tile.number 1, Tile.number 1] :
        List Tile).length = 2 * 2 ∧
      ([Tile.bomb, Tile.number 1, Tile.number 1, Tile.number 1] :
        List Tile).countP (fun t => decide (t = Tile.bomb)) = 1 ∧
      ∀ i, i < 2 * 2 →
        ([Tile.bomb, Tile.number 1, Tile.number 1, Tile.number 1] :
          List Tile).getD i Tile.empty ≠ Tile.bomb →
        ([Tile.bomb, Tile.number 1, Tile.number 1, Tile.number 1] :
          List Tile).getD i Tile.empty =
          (if 0 < specMineNeighborCount 2 2
              [Tile.bomb, Tile.number 1, Tile.number 1, Tile.number 1] i then
            Tile.number (specMineNeighborCount 2 2
              [Tile.bomb, Tile.number 1, Tile.number 1, Tile.number 1] i)
          else Tile.empty)) := by
  have hgen : generateInitialGrid 2 2 1 (fun _ => 0) 1 =
      some [Tile.bomb, Tile.number 1, Tile.number 1, Tile.number 1] := by decide
  exact ⟨hgen, C2_generate_spec 2 2 1 (fun _ => 0) 1 _ (by decide) (by decide)
    (by decide) (by decide) hgen⟩
